import Mathlib

/-!
# Verification of the pdf-to-image chunked conversion program

Shallow embedding of the Go program `pdfToImg` (file `main.go`, newest
revision): bounds resolution from the CLI flags, the chunked page loop of
`main`, the per-page work of `processChunk` (file naming, running counter,
progress calls), and the fail-fast error behaviour of `checkError`.

Go `int` values are modelled as `Int`.  The body of the progress-bar
renderer `logProgress` computes in IEEE-754 `float64`, whose rounding is
outside this integer embedding; only the positions of its call sites are
modelled, not its output string.
-/

/-- Embedding of the Go variadic `intMin(vals ...int)`: the head argument
models `vals[0]` (the Go function panics on an empty argument list, which
the nonempty head+tail shape rules out); the fold models the loop
`for _, val := range vals[1:] { if val < best { best = val } }`. -/
def intMin (v : Int) (vs : List Int) : Int :=
  vs.foldl (fun best val => if val < best then val else best) v

/-- Bounds resolution for the start page (`main`, lines 55-58):
`startPage := 0; if *startPgF > 0 && *startPgF <= *endPgF { startPage = *startPgF - 1 }`. -/
def resolveStart (startFlag endFlag : Int) : Int :=
  if 0 < startFlag ∧ startFlag ≤ endFlag then startFlag - 1 else 0

/-- Bounds resolution for the end page (`main`, lines 60-63):
`endPage := *endPgF; if *endPgF < 0 || *endPgF > totalPages { endPage = totalPages }`. -/
def resolveEnd (endFlag totalPages : Int) : Int :=
  if endFlag < 0 ∨ totalPages < endFlag then totalPages else endFlag

/-- The list of integers `[a, a+1, ..., b-1]` (empty when `b ≤ a`).
This is exactly the index sequence of the Go loop
`for n := start; n < end; n++`, and also the spec-side half-open
interval `[a, b)`. -/
def intRange (a b : Int) : List Int :=
  (List.range (b - a).toNat).map (fun i : Nat => a + (i : Int))

/-- One step of the chunk loop of `main` (lines 71-75), with explicit
fuel so the definition is total; `none` means the fuel ran out before the
loop condition `remPages > 0` failed.  Each iteration emits the chunk
`[curStart, curEnd)`, performs `remPages -= curEnd - curStart` and
`curStart, curEnd = curEnd, intMin(curEnd+*chunkSizeF, totalPages)`. -/
def chunkLoopFuel (chunkSize totalPages : Int) :
    Nat → Int → Int → Int → Option (List (Int × Int))
  | 0, remPages, _, _ => if 0 < remPages then none else some []
  | Nat.succ fuel, remPages, curStart, curEnd =>
    if 0 < remPages then
      match chunkLoopFuel chunkSize totalPages fuel
          (remPages - (curEnd - curStart)) curEnd
          (intMin (curEnd + chunkSize) [totalPages]) with
      | none => none
      | some L => some ((curStart, curEnd) :: L)
    else some []

/-- The chunk sequence produced by a full run of `main` (lines 66-75):
resolve the bounds, set `remPages := endPage - startPage`,
`curStart, curEnd := startPage, intMin(startPage+remPages, startPage+*chunkSizeF, totalPages)`
and iterate the loop.  Fuel `remPages.toNat` suffices (each iteration
removes at least one remaining page), so `some` is the normal outcome. -/
def runChunkList (startFlag endFlag totalPages chunkSize : Int) :
    Option (List (Int × Int)) :=
  let startPage := resolveStart startFlag endFlag
  let endPage := resolveEnd endFlag totalPages
  let remPages := endPage - startPage
  chunkLoopFuel chunkSize totalPages remPages.toNat remPages startPage
    (intMin (startPage + remPages) [startPage + chunkSize, totalPages])

/-- The page indices processed by a chunk list, in processing order:
`processChunk` runs `for n := start; n < end; n++` over each chunk. -/
def pagesOf : List (Int × Int) → List Int
  | [] => []
  | (a, b) :: rest => intRange a b ++ pagesOf rest

/-- `chainFrom s L` holds when the chunks in `L` are contiguous starting
at `s`: each chunk starts exactly where the previous one ended. -/
def chainFrom (s : Int) : List (Int × Int) → Bool
  | [] => true
  | (a, b) :: rest => (a == s) && chainFrom b rest

/-! ## Basic facts about `intRange` and `intMin` -/

theorem intRange_append (a c b : Int) (h1 : a ≤ c) (h2 : c ≤ b) :
    intRange a c ++ intRange c b = intRange a b := by
  unfold intRange
  have hsum : (b - a).toNat = (c - a).toNat + (b - c).toNat := by omega
  rw [hsum, List.range_add, List.map_append, List.map_map]
  congr 1
  apply List.map_congr_left
  intro i _
  simp only [Function.comp_apply]
  push_cast
  omega

theorem mem_intRange (n a b : Int) : n ∈ intRange a b ↔ a ≤ n ∧ n < b := by
  unfold intRange
  simp only [List.mem_map, List.mem_range]
  constructor
  · rintro ⟨i, hi, rfl⟩; omega
  · intro h; exact ⟨(n - a).toNat, by omega, by omega⟩

theorem intRange_length (a b : Int) : (intRange a b).length = (b - a).toNat := by
  simp [intRange]

theorem intRange_eq_nil (a b : Int) (h : b ≤ a) : intRange a b = [] := by
  unfold intRange
  have h0 : (b - a).toNat = 0 := by omega
  rw [h0]; rfl

theorem intMin_one (a b : Int) : intMin a [b] = if b < a then b else a := rfl

theorem intMin_two (a b c : Int) :
    intMin a [b, c] =
      if c < (if b < a then b else a) then c else (if b < a then b else a) := rfl

/-! ## Basic facts about the bounds resolution -/

theorem resolveStart_nonneg (sf ef : Int) : 0 ≤ resolveStart sf ef := by
  unfold resolveStart; split <;> omega

theorem resolveEnd_le (ef tp : Int) : resolveEnd ef tp ≤ tp := by
  unfold resolveEnd; split <;> omega

theorem resolveEnd_nonneg (ef tp : Int) (h : 0 ≤ tp) : 0 ≤ resolveEnd ef tp := by
  unfold resolveEnd; split <;> omega

/-- C2 counterexample input: `startFlag = 10, endFlag = 20, totalPages = 5`
resolves to `startPage = 9 > endPage = 5`. -/
theorem bounds_invariant_cex :
    resolveStart 10 20 = 9 ∧ resolveEnd 20 5 = 5 ∧
      ¬ resolveStart 10 20 ≤ resolveEnd 20 5 := by
  refine ⟨by rfl, by rfl, by decide⟩

/-- C2 (amended): for `totalPages ≥ 0` the resolved bounds always satisfy
`0 ≤ startPage` and `0 ≤ endPage ≤ totalPages`; the remaining inequality
`startPage ≤ endPage` holds provided `startFlag ≤ totalPages` (it fails
for `startFlag = 10, endFlag = 20, totalPages = 5`). -/
theorem bounds_invariant_amended (sf ef tp : Int) (htp : 0 ≤ tp) :
    0 ≤ resolveStart sf ef ∧ 0 ≤ resolveEnd ef tp ∧ resolveEnd ef tp ≤ tp ∧
      (sf ≤ tp → resolveStart sf ef ≤ resolveEnd ef tp) := by
  refine ⟨resolveStart_nonneg sf ef, resolveEnd_nonneg ef tp htp,
    resolveEnd_le ef tp, fun hsf => ?_⟩
  unfold resolveStart resolveEnd
  split <;> split <;> omega

/-- C2 witness: the amended invariant at `startFlag = 2, endFlag = 9, totalPages = 5`. -/
theorem bounds_invariant_amended_witness :
    (0 : Int) ≤ 5 ∧
      (0 ≤ resolveStart 2 9 ∧ 0 ≤ resolveEnd 9 5 ∧ resolveEnd 9 5 ≤ 5 ∧
        ((2 : Int) ≤ 5 → resolveStart 2 9 ≤ resolveEnd 9 5)) :=
  ⟨by decide, bounds_invariant_amended 2 9 5 (by decide)⟩

/-- C5: when the start flag is positive but exceeds the end flag, the
guard `*startPgF > 0 && *startPgF <= *endPgF` fails and the start page
defaults to 0; in particular an unset end flag (the `-1` sentinel) never
lets a positive explicit start take effect. -/
theorem start_guard_rejects_inconsistent (sf ef : Int) (hs : 0 < sf) :
    (ef < sf → resolveStart sf ef = 0) ∧ resolveStart sf (-1) = 0 := by
  constructor
  · intro hlt
    unfold resolveStart
    split <;> omega
  · unfold resolveStart
    split <;> omega

/-- C5 witness: `startFlag = 7 > endFlag = 3` gives `startPage = 0`, and
`startFlag = 7` with the `-1` sentinel end gives `startPage = 0`. -/
theorem start_guard_rejects_inconsistent_witness :
    (0 : Int) < 7 ∧
      (((3 : Int) < 7 → resolveStart 7 3 = 0) ∧ resolveStart 7 (-1) = 0) :=
  ⟨by decide, start_guard_rejects_inconsistent 7 3 (by decide)⟩

/-- C6: for `totalPages ≥ 0`, the `-1` sentinel and any end flag above
`totalPages` both resolve to `totalPages`, an in-range end flag is left
unchanged, and the clamp is idempotent. -/
theorem end_clamp_idempotent (ef tp : Int) (htp : 0 ≤ tp) :
    resolveEnd (-1) tp = tp ∧
      (tp < ef → resolveEnd ef tp = tp) ∧
      (0 ≤ ef → ef ≤ tp → resolveEnd ef tp = ef) ∧
      resolveEnd (resolveEnd ef tp) tp = resolveEnd ef tp := by
  refine ⟨?_, ?_, ?_, ?_⟩
  · unfold resolveEnd; split <;> omega
  · intro h; unfold resolveEnd; split <;> omega
  · intro h0 h1; unfold resolveEnd; split <;> omega
  · unfold resolveEnd
    split
    · split <;> omega
    · omega

/-- C6 witness: the clamp at `totalPages = 5` with end flag `9`. -/
theorem end_clamp_idempotent_witness :
    (0 : Int) ≤ 5 ∧
      (resolveEnd (-1) 5 = 5 ∧
        ((5 : Int) < 9 → resolveEnd 9 5 = 5) ∧
        ((0 : Int) ≤ 9 → (9 : Int) ≤ 5 → resolveEnd 9 5 = 9) ∧
        resolveEnd (resolveEnd 9 5) 5 = resolveEnd 9 5) :=
  ⟨by decide, end_clamp_idempotent 9 5 (by decide)⟩

/-! ## The chunk partition in the `endPage = totalPages` regime

When the resolved end page equals `totalPages` (end flag unset or out of
range), every clamp `intMin(..., totalPages)` in the loop coincides with a
clamp at the end page, and the loop produces a genuine partition of
`[startPage, totalPages)`. -/

theorem chunkLoop_partition (C tp : Int) (hC : 0 < C) :
    ∀ (fuel : Nat) (s : Int), (tp - s).toNat ≤ fuel →
      ∃ L, chunkLoopFuel C tp fuel (tp - s) s (intMin (s + C) [tp]) = some L ∧
        chainFrom s L = true ∧
        (∀ p ∈ L, p.1 < p.2) ∧
        pagesOf L = intRange s tp ∧
        (∀ p ∈ L.dropLast, p.2 - p.1 = C) ∧
        (∀ p ∈ L.getLast?, p.2 - p.1 =
          if (tp - s) % C = 0 then C else (tp - s) % C) ∧
        (L = [] ↔ tp ≤ s) := by
  intro fuel
  induction fuel with
  | zero =>
    intro s hs
    have hts : tp ≤ s := by omega
    refine ⟨[], ?_, rfl, by simp, (intRange_eq_nil s tp hts).symm, by simp, by simp, by simp [hts]⟩
    unfold chunkLoopFuel
    rw [if_neg (by omega)]
  | succ fuel ih =>
    intro s hs
    by_cases hts : tp ≤ s
    · refine ⟨[], ?_, rfl, by simp, (intRange_eq_nil s tp hts).symm, by simp, by simp, by simp [hts]⟩
      unfold chunkLoopFuel
      rw [if_neg (by omega)]
    · push_neg at hts
      set c : Int := intMin (s + C) [tp] with hcdef
      have hcif : c = if tp < s + C then tp else s + C := by rw [hcdef, intMin_one]
      have hsc : s < c := by rw [hcif]; split <;> omega
      have hctp : c ≤ tp := by rw [hcif]; split <;> omega
      have hcC : c ≤ s + C := by rw [hcif]; split <;> omega
      have hclt : c < tp → c = s + C := by rw [hcif]; split <;> omega
      obtain ⟨L', hL', hchain, hpos, hpages, hdrop, hlast, hnil⟩ :=
        ih c (by omega)
      have hrem : tp - s - (c - s) = tp - c := by ring
      refine ⟨(s, c) :: L', ?_, ?_, ?_, ?_, ?_, ?_, by simp; omega⟩
      · unfold chunkLoopFuel
        rw [if_pos (by omega), hrem, hL']
      · simp [chainFrom, hchain]
      · intro p hp
        rcases List.mem_cons.mp hp with h | h
        · rw [h]; exact hsc
        · exact hpos p h
      · show intRange s c ++ pagesOf L' = intRange s tp
        rw [hpages, intRange_append s c tp (by omega) hctp]
      · intro p hp
        match hL'' : L' with
        | [] => simp [hL''] at hp
        | q :: L'' =>
          rw [List.dropLast_cons_of_ne_nil (by simp)] at hp
          rcases List.mem_cons.mp hp with h | h
          · have hcne : c < tp := by
              by_contra hge
              have hx : q :: L'' = [] := hnil.mpr (by omega)
              simp at hx
            rw [h]
            have := hclt hcne
            omega
          · exact hdrop p h
      · intro p hp
        match hL'' : L' with
        | [] =>
          have hceq : c = tp := by
            have := hnil.mp rfl
            omega
          simp only [List.getLast?_singleton, Option.mem_def,
            Option.some.injEq] at hp
          subst hp
          dsimp only
          have h1 : 0 < tp - s := by omega
          have h2 : tp - s ≤ C := by omega
          rcases lt_or_eq_of_le h2 with hlt | heq
          · rw [Int.emod_eq_of_lt (by omega) hlt, if_neg (by omega)]
            omega
          · rw [heq, Int.emod_self, if_pos rfl]
            omega
        | q :: L'' =>
          have hcne : c < tp := by
            by_contra hge
            have hx : q :: L'' = [] := hnil.mpr (by omega)
            simp at hx
          have hcC' : c = s + C := hclt hcne
          have hmod : (tp - c) % C = (tp - s) % C := by
            rw [hcC']
            have hx : tp - (s + C) = tp - s - C := by ring
            rw [hx, Int.emod_sub_cancel]
          rw [List.getLast?_cons_cons] at hp
          have hv := hlast p hp
          rw [hmod] at hv
          exact hv

theorem intMin_init (sp C tp : Int) :
    intMin (sp + (tp - sp)) [sp + C, tp] = intMin (sp + C) [tp] := by
  rw [intMin_two, intMin_one]
  have h : sp + (tp - sp) = tp := by ring
  rw [h]
  split_ifs <;> omega

/-- C1 (amended): when the resolved end page equals `totalPages` — in
particular whenever the end flag is `-1` or exceeds `totalPages` — the
chunk loop emits contiguous, increasing, non-overlapping chunks whose
union is exactly `[startPage, endPage)`, all of length `chunkSize` except
possibly the last, whose length is `(endPage-startPage) % chunkSize` (or
`chunkSize` when that remainder is 0), and no page outside
`[startPage, endPage)` is processed.  (As stated over every resolved
range the claim fails: the loop clamps chunk ends at `totalPages`, not at
`endPage`, so an explicit end flag below `totalPages` can be overshot.) -/
theorem chunk_partition_amended (sf ef tp C : Int) (hC : 0 < C)
    (hep : resolveEnd ef tp = tp) :
    ∃ L, runChunkList sf ef tp C = some L ∧
      chainFrom (resolveStart sf ef) L = true ∧
      (∀ p ∈ L, p.1 < p.2) ∧
      pagesOf L = intRange (resolveStart sf ef) (resolveEnd ef tp) ∧
      (∀ p ∈ L.dropLast, p.2 - p.1 = C) ∧
      (∀ p ∈ L.getLast?, p.2 - p.1 =
        if (resolveEnd ef tp - resolveStart sf ef) % C = 0 then C
        else (resolveEnd ef tp - resolveStart sf ef) % C) ∧
      (∀ n ∈ pagesOf L, resolveStart sf ef ≤ n ∧ n < resolveEnd ef tp) := by
  have hrun0 : runChunkList sf ef tp C =
      chunkLoopFuel C tp (resolveEnd ef tp - resolveStart sf ef).toNat
        (resolveEnd ef tp - resolveStart sf ef) (resolveStart sf ef)
        (intMin (resolveStart sf ef + (resolveEnd ef tp - resolveStart sf ef))
          [resolveStart sf ef + C, tp]) := rfl
  rw [hep, intMin_init] at hrun0
  rw [hep]
  obtain ⟨L, hsome, hchain, hpos, hpages, hdrop, hlast, _⟩ :=
    chunkLoop_partition C tp hC (tp - resolveStart sf ef).toNat
      (resolveStart sf ef) le_rfl
  refine ⟨L, hrun0.trans hsome, hchain, hpos, hpages, hdrop, hlast, ?_⟩
  rw [hpages]
  intro n hn
  exact (mem_intRange n (resolveStart sf ef) tp).mp hn

/-- C1 counterexample: flags `startFlag = 0, endFlag = 5, totalPages = 10,
chunkSize = 3` resolve to the range `[0, 5)`, but the loop emits
`[0,3), [3,6)`: the union `[0, 6)` is not `[0, 5)` — page 5 is processed
although it lies outside the resolved range. -/
theorem chunk_partition_cex :
    runChunkList 0 5 10 3 = some [(0, 3), (3, 6)] ∧
      resolveStart 0 5 = 0 ∧ resolveEnd 5 10 = 5 ∧
      pagesOf [(0, 3), (3, 6)] ≠ intRange (resolveStart 0 5) (resolveEnd 5 10) ∧
      (5 : Int) ∈ pagesOf [(0, 3), (3, 6)] := by
  refine ⟨by decide, by decide, by decide, by decide, by decide⟩

/-- C1 witness: the spec's own scenario `startFlag = 0, endFlag = -1,
totalPages = 7, chunkSize = 3`. -/
theorem chunk_partition_amended_witness :
    ((0 : Int) < 3 ∧ resolveEnd (-1) 7 = 7) ∧
      (∃ L, runChunkList 0 (-1) 7 3 = some L ∧
        chainFrom (resolveStart 0 (-1)) L = true ∧
        (∀ p ∈ L, p.1 < p.2) ∧
        pagesOf L = intRange (resolveStart 0 (-1)) (resolveEnd (-1) 7) ∧
        (∀ p ∈ L.dropLast, p.2 - p.1 = 3) ∧
        (∀ p ∈ L.getLast?, p.2 - p.1 =
          if (resolveEnd (-1) 7 - resolveStart 0 (-1)) % 3 = 0 then 3
          else (resolveEnd (-1) 7 - resolveStart 0 (-1)) % 3) ∧
        (∀ n ∈ pagesOf L, resolveStart 0 (-1) ≤ n ∧ n < resolveEnd (-1) 7)) :=
  ⟨⟨by decide, by decide⟩, chunk_partition_amended 0 (-1) 7 3 (by decide) (by decide)⟩

/-! ## Termination of the chunk loop -/

/-- Loop-invariant termination lemma: with a positive chunk size and an
end page `E ≤ totalPages`, fuel `(E - s).toNat` is enough for the loop,
because every iteration with remaining pages emits a chunk of at least
one page. -/
theorem chunkLoop_terminates (C tp E : Int) (hC : 0 < C) (hE : E ≤ tp) :
    ∀ (fuel : Nat) (s c : Int), (E - s).toNat ≤ fuel → (0 < E - s → s < c) →
      (chunkLoopFuel C tp fuel (E - s) s c).isSome := by
  intro fuel
  induction fuel with
  | zero =>
    intro s c hs hsc
    unfold chunkLoopFuel
    rw [if_neg (by omega)]
    simp
  | succ fuel ih =>
    intro s c hs hsc
    unfold chunkLoopFuel
    by_cases h : 0 < E - s
    · rw [if_pos h]
      have hsc' := hsc h
      have hrem : E - s - (c - s) = E - c := by ring
      rw [hrem]
      have hnext : 0 < E - c → c < intMin (c + C) [tp] := by
        intro hcE
        rw [intMin_one]
        split <;> omega
      have hrec := ih c (intMin (c + C) [tp]) (by omega) hnext
      rcases hsome : chunkLoopFuel C tp fuel (E - c) c (intMin (c + C) [tp]) with _ | L
      · rw [hsome] at hrec; simp at hrec
      · simp
    · rw [if_neg h]; simp

/-- C4: for every flag combination, `totalPages ≥ 0` and positive chunk
size, the chunk loop of `main` terminates: the fuel
`(endPage - startPage).toNat` used by `runChunkList` never runs out, so
the run yields a result. -/
theorem chunk_loop_terminates_run (sf ef tp C : Int) (hC : 0 < C) (htp : 0 ≤ tp) :
    (runChunkList sf ef tp C).isSome := by
  have hrun0 : runChunkList sf ef tp C =
      chunkLoopFuel C tp (resolveEnd ef tp - resolveStart sf ef).toNat
        (resolveEnd ef tp - resolveStart sf ef) (resolveStart sf ef)
        (intMin (resolveStart sf ef + (resolveEnd ef tp - resolveStart sf ef))
          [resolveStart sf ef + C, tp]) := rfl
  rw [hrun0]
  apply chunkLoop_terminates C tp (resolveEnd ef tp) hC (resolveEnd_le ef tp)
  · exact le_rfl
  · intro h
    rw [intMin_two]
    have h1 := resolveEnd_le ef tp
    split_ifs <;> omega

/-- C4 witness: the default flags on a 7-page document. -/
theorem chunk_loop_terminates_run_witness :
    ((0 : Int) < 100 ∧ (0 : Int) ≤ 7) ∧ (runChunkList 0 (-1) 7 100).isSome :=
  ⟨⟨by decide, by decide⟩, chunk_loop_terminates_run 0 (-1) 7 100 (by decide) (by decide)⟩

/-! ## Pages handed to the renderer stay inside the document -/

/-- Loop-invariant lemma: if the loop starts from a non-negative
`curStart` and a `curEnd` within `[0, totalPages]`, every page of every
emitted chunk lies in `[0, totalPages)` — each chunk end is produced by
`intMin(..., totalPages)`. -/
theorem chunkLoop_pages_bounded (C tp : Int) (hC : 0 < C) (htp : 0 ≤ tp) :
    ∀ (fuel : Nat) (rem s c : Int) (L : List (Int × Int)), 0 ≤ s → 0 ≤ c → c ≤ tp →
      chunkLoopFuel C tp fuel rem s c = some L →
      ∀ n ∈ pagesOf L, 0 ≤ n ∧ n < tp := by
  intro fuel
  induction fuel with
  | zero =>
    intro rem s c L hs hc hctp hrun
    unfold chunkLoopFuel at hrun
    split at hrun
    · exact absurd hrun (by simp)
    · cases hrun
      simp [pagesOf]
  | succ fuel ih =>
    intro rem s c L hs hc hctp hrun
    unfold chunkLoopFuel at hrun
    split at hrun
    · rcases hsome : chunkLoopFuel C tp fuel (rem - (c - s)) c
          (intMin (c + C) [tp]) with _ | L'
      · rw [hsome] at hrun; exact absurd hrun (by simp)
      · rw [hsome] at hrun
        rw [Option.some.injEq] at hrun
        subst hrun
        intro n hn
        rcases List.mem_append.mp hn with h | h
        · have := (mem_intRange n s c).mp h
          omega
        · refine ih (rem - (c - s)) c (intMin (c + C) [tp]) L' hc ?_ ?_ hsome n h
          · rw [intMin_one]; split <;> omega
          · rw [intMin_one]; split <;> omega
    · cases hrun
      simp [pagesOf]

/-- C10: in every completed run, every page index handed to the
renderer's `doc.Image(n)` call (the pages of the emitted chunks) lies in
`[0, totalPages)` — even in runs where the loop overshoots the requested
`endPage`, the `intMin(..., totalPages)` clamp keeps the renderer in
range. -/
theorem renderer_in_range (sf ef tp C : Int) (hC : 0 < C) (htp : 0 ≤ tp)
    (L : List (Int × Int)) (h : runChunkList sf ef tp C = some L) :
    ∀ n ∈ pagesOf L, 0 ≤ n ∧ n < tp := by
  have hrun0 : runChunkList sf ef tp C =
      chunkLoopFuel C tp (resolveEnd ef tp - resolveStart sf ef).toNat
        (resolveEnd ef tp - resolveStart sf ef) (resolveStart sf ef)
        (intMin (resolveStart sf ef + (resolveEnd ef tp - resolveStart sf ef))
          [resolveStart sf ef + C, tp]) := rfl
  rw [hrun0] at h
  refine chunkLoop_pages_bounded C tp hC htp _ _ _ _ L
    (resolveStart_nonneg sf ef) ?_ ?_ h
  · rw [intMin_two]
    have h1 := resolveEnd_nonneg ef tp htp
    have h2 := resolveStart_nonneg sf ef
    split_ifs <;> omega
  · rw [intMin_two]
    have h1 := resolveEnd_le ef tp
    split_ifs <;> omega

/-- C10 witness: `startFlag = 2, endFlag = 5, totalPages = 10,
chunkSize = 3` — a run that overshoots the requested end page 5 (it
processes pages 1..6) yet stays inside `[0, 10)`. -/
theorem renderer_in_range_witness :
    ((0 : Int) < 3 ∧ (0 : Int) ≤ 10 ∧
        runChunkList 2 5 10 3 = some [(1, 4), (4, 7)]) ∧
      ∀ n ∈ pagesOf [(1, 4), (4, 7)], 0 ≤ n ∧ n < 10 :=
  ⟨⟨by decide, by decide, by decide⟩,
    renderer_in_range 2 5 10 3 (by decide) (by decide) [(1, 4), (4, 7)] (by decide)⟩

/-! ## The per-page work: file names, running counter, progress calls -/

/-- Go `fmt.Sprintf("%03d", ...)` applied to a decimal string: left-pad
with `'0'` to width at least 3 (`processChunk`, line 94). -/
def zeroPad3 (s : String) : String :=
  if s.length < 3 then String.mk (List.replicate (3 - s.length) '0') ++ s else s

/-- The output file name written for page index `n` (`processChunk`,
line 94): `fmt.Sprintf("%03d.jpg", n+1)`. -/
def pageFileName (n : Int) : String :=
  zeroPad3 (toString (n + 1)) ++ ".jpg"

/-- The page loop of `processChunk` (lines 89-106) over a list of page
indices, threading the running counter: each page is rendered, written to
`%03d.jpg` of its 1-based number, `logProgress(tot, count)` is called
when `count % pollFreq == 0` (with `pollFreq = 5`), and the counter is
incremented.  Returns the final counter, the file names written in
order, and the `(tot, current)` arguments of the progress calls. -/
def pageSteps (tot : Int) : List Int → Int → Int × List String × List (Int × Int)
  | [], cnt => (cnt, [], [])
  | n :: rest, cnt =>
    let calls : List (Int × Int) := if cnt % 5 = 0 then [(tot, cnt)] else []
    let r := pageSteps tot rest (cnt + 1)
    (r.1, pageFileName n :: r.2.1, calls ++ r.2.2)

/-- `processChunk(start, end, f, opath, cnt, tot)`: the page loop over
`[start, end)` followed by the unconditional end-of-chunk
`logProgress(tot, count)` call (line 107). -/
def processChunk (start e cnt tot : Int) : Int × List String × List (Int × Int) :=
  let r := pageSteps tot (intRange start e) cnt
  (r.1, r.2.1, r.2.2 ++ [(tot, r.1)])

/-- The chunk-processing loop of `main` over the emitted chunk list:
`count = processChunk(curStart, curEnd, *inFileF, *outDirF, count, endPage-startPage)`. -/
def chunksRun (tot : Int) : List (Int × Int) → Int → Int × List String × List (Int × Int)
  | [], cnt => (cnt, [], [])
  | (a, b) :: rest, cnt =>
    let r1 := processChunk a b cnt tot
    let r2 := chunksRun tot rest r1.1
    (r2.1, r1.2.1 ++ r2.2.1, r1.2.2 ++ r2.2.2)

/-- The chunk list of a completed run (`chunk_loop_terminates_run` shows
the `none` fallback is never taken for a positive chunk size). -/
def runChunks (sf ef tp C : Int) : List (Int × Int) :=
  (runChunkList sf ef tp C).getD []

/-- Counter, file and progress trace of a full run of `main`: the chunk
loop starts with `count = 0` and passes `endPage - startPage` as the
progress total. -/
def runResult (sf ef tp C : Int) : Int × List String × List (Int × Int) :=
  chunksRun (resolveEnd ef tp - resolveStart sf ef) (runChunks sf ef tp C) 0

def runCounter (sf ef tp C : Int) : Int := (runResult sf ef tp C).1

def runFiles (sf ef tp C : Int) : List String := (runResult sf ef tp C).2.1

def runProgressCalls (sf ef tp C : Int) : List (Int × Int) :=
  (runResult sf ef tp C).2.2

def runPages (sf ef tp C : Int) : List Int := pagesOf (runChunks sf ef tp C)

theorem pageSteps_counter (tot : Int) (pages : List Int) (cnt : Int) :
    (pageSteps tot pages cnt).1 = cnt + pages.length := by
  induction pages generalizing cnt with
  | nil => simp [pageSteps]
  | cons n rest ih =>
    simp only [pageSteps, ih (cnt + 1), List.length_cons]
    push_cast
    ring

theorem pageSteps_files (tot : Int) (pages : List Int) (cnt : Int) :
    (pageSteps tot pages cnt).2.1 = pages.map pageFileName := by
  induction pages generalizing cnt with
  | nil => simp [pageSteps]
  | cons n rest ih => simp only [pageSteps, ih (cnt + 1), List.map_cons]

theorem chunksRun_counter (tot : Int) (L : List (Int × Int)) (cnt : Int) :
    (chunksRun tot L cnt).1 = cnt + (pagesOf L).length := by
  induction L generalizing cnt with
  | nil => simp [chunksRun, pagesOf]
  | cons p rest ih =>
    obtain ⟨a, b⟩ := p
    simp only [chunksRun, processChunk, ih, pageSteps_counter, pagesOf,
      List.length_append]
    push_cast
    ring

theorem chunksRun_files (tot : Int) (L : List (Int × Int)) (cnt : Int) :
    (chunksRun tot L cnt).2.1 = (pagesOf L).map pageFileName := by
  induction L generalizing cnt with
  | nil => simp [chunksRun, pagesOf]
  | cons p rest ih =>
    obtain ⟨a, b⟩ := p
    simp only [chunksRun, processChunk, ih, pageSteps_files, pagesOf,
      List.map_append]

theorem zeroPad3_length (s : String) : 3 ≤ (zeroPad3 s).length := by
  unfold zeroPad3
  split
  · rw [String.length_append]
    have hmk : (String.mk (List.replicate (3 - s.length) '0')).length =
        3 - s.length := by
      show (List.replicate (3 - s.length) '0').length = 3 - s.length
      exact List.length_replicate _ _
    omega
  · omega

theorem zeroPad3_shape (s : String) :
    ∃ k, zeroPad3 s = String.mk (List.replicate k '0') ++ s := by
  unfold zeroPad3
  split
  · exact ⟨3 - s.length, rfl⟩
  · refine ⟨0, ?_⟩
    show s = String.mk [] ++ s
    rfl

/-- C3 (amended): when the resolved end page equals `totalPages` and the
resolved range is non-degenerate (`startPage ≤ endPage`), the running
counter after all chunks equals `endPage - startPage` exactly (one
increment per page processed), the files written are exactly one per
processed page in order, and every file name is the page's 1-based
number `n+1` zero-padded to width at least 3 with `.jpg` appended.
(As claimed over every successful run the counter statement fails: a run
whose chunks overshoot an explicit `endPage < totalPages` counts the
extra pages too.) -/
theorem running_counter_amended (sf ef tp C : Int) (hC : 0 < C)
    (hep : resolveEnd ef tp = tp)
    (hse : resolveStart sf ef ≤ resolveEnd ef tp) :
    runCounter sf ef tp C = resolveEnd ef tp - resolveStart sf ef ∧
      runFiles sf ef tp C = (runPages sf ef tp C).map pageFileName ∧
      ∀ n ∈ runPages sf ef tp C,
        3 ≤ (zeroPad3 (toString (n + 1))).length ∧
        ∃ k, pageFileName n =
          String.mk (List.replicate k '0') ++ toString (n + 1) ++ ".jpg" := by
  obtain ⟨L, hL, _, _, hpages, _, _⟩ := chunk_partition_amended sf ef tp C hC hep
  have hchunks : runChunks sf ef tp C = L := by
    unfold runChunks
    rw [hL]
    rfl
  refine ⟨?_, ?_, ?_⟩
  · unfold runCounter runResult
    rw [hchunks, chunksRun_counter, hpages, intRange_length]
    omega
  · unfold runFiles runPages runResult
    rw [hchunks, chunksRun_files]
  · intro n _
    refine ⟨zeroPad3_length _, ?_⟩
    obtain ⟨k, hk⟩ := zeroPad3_shape (toString (n + 1))
    exact ⟨k, by rw [pageFileName, hk]⟩

/-- C3 counterexample: flags `startFlag = 0, endFlag = 5, totalPages = 10,
chunkSize = 3` — the run processes 6 pages (the loop overshoots the
resolved end page 5), so the final counter is 6, not
`endPage - startPage = 5`. -/
theorem running_counter_cex :
    runCounter 0 5 10 3 = 6 ∧ resolveEnd 5 10 - resolveStart 0 5 = 5 ∧
      (6 : Int) ≠ 5 := by
  refine ⟨by decide, by decide, by decide⟩

/-- C3 witness: the spec's scenario `startFlag = 0, endFlag = -1,
totalPages = 7, chunkSize = 3` (7 pages, files `001.jpg` .. `007.jpg`). -/
theorem running_counter_amended_witness :
    ((0 : Int) < 3 ∧ resolveEnd (-1) 7 = 7 ∧
        resolveStart 0 (-1) ≤ resolveEnd (-1) 7) ∧
      (runCounter 0 (-1) 7 3 = resolveEnd (-1) 7 - resolveStart 0 (-1) ∧
        runFiles 0 (-1) 7 3 = (runPages 0 (-1) 7 3).map pageFileName ∧
        ∀ n ∈ runPages 0 (-1) 7 3,
          3 ≤ (zeroPad3 (toString (n + 1))).length ∧
          ∃ k, pageFileName n =
            String.mk (List.replicate k '0') ++ toString (n + 1) ++ ".jpg") :=
  ⟨⟨by decide, by decide, by decide⟩,
    running_counter_amended 0 (-1) 7 3 (by decide) (by decide) (by decide)⟩

/-- C8: whenever the resolved range is empty (`endPage ≤ startPage`,
which covers `totalPages = 0`), the loop condition `remPages > 0` fails
immediately: zero chunks, zero pages, zero files, final counter 0, and
the progress renderer is never invoked (so its division `cur/tot` never
runs), and the run completes normally. -/
theorem empty_range_run (sf ef tp C : Int)
    (h : resolveEnd ef tp ≤ resolveStart sf ef) :
    runChunkList sf ef tp C = some [] ∧ runChunks sf ef tp C = [] ∧
      runPages sf ef tp C = [] ∧ runCounter sf ef tp C = 0 ∧
      runFiles sf ef tp C = [] ∧ runProgressCalls sf ef tp C = [] := by
  have hrun0 : runChunkList sf ef tp C =
      chunkLoopFuel C tp (resolveEnd ef tp - resolveStart sf ef).toNat
        (resolveEnd ef tp - resolveStart sf ef) (resolveStart sf ef)
        (intMin (resolveStart sf ef + (resolveEnd ef tp - resolveStart sf ef))
          [resolveStart sf ef + C, tp]) := rfl
  have h0 : (resolveEnd ef tp - resolveStart sf ef).toNat = 0 := by omega
  have hsome : runChunkList sf ef tp C = some [] := by
    rw [hrun0, h0]
    unfold chunkLoopFuel
    rw [if_neg (by omega)]
  have hchunks : runChunks sf ef tp C = [] := by
    unfold runChunks
    rw [hsome]
    rfl
  refine ⟨hsome, hchunks, ?_, ?_, ?_, ?_⟩
  · unfold runPages; rw [hchunks]; rfl
  · unfold runCounter runResult; rw [hchunks]; rfl
  · unfold runFiles runResult; rw [hchunks]; rfl
  · unfold runProgressCalls runResult; rw [hchunks]; rfl

/-- C8 witness: `totalPages = 0` with the default flags. -/
theorem empty_range_run_witness :
    resolveEnd (-1) 0 ≤ resolveStart 0 (-1) ∧
      (runChunkList 0 (-1) 0 100 = some [] ∧ runChunks 0 (-1) 0 100 = [] ∧
        runPages 0 (-1) 0 100 = [] ∧ runCounter 0 (-1) 0 100 = 0 ∧
        runFiles 0 (-1) 0 100 = [] ∧ runProgressCalls 0 (-1) 0 100 = []) :=
  ⟨by decide, empty_range_run 0 (-1) 0 100 (by decide)⟩

/-! ## Fail-fast error behaviour

`checkError` (lines 145-149) calls `log.Fatal` on any error: the process
exits non-zero at the first failing operation, with no retry and no
rollback of already-written files. -/

/-- The three fallible operations `processChunk` performs per page, in
program order: `doc.Image(n)` (render), `os.Create(...)` (create the
output file), `jpeg.Encode(...)` (encode into the created file). -/
inductive PageStage
  | render
  | create
  | encode
deriving DecidableEq

/-- The page loop of `processChunk` under an error oracle `err` giving
the first failing operation of each page (`none` = the page succeeds).
`checkError` aborts the whole run at the first error, so the result is
`Except.error` carrying the files present in the output directory at
abort together with the failing page and stage.  `os.Create` runs before
`jpeg.Encode`, so a page failing at the encode stage leaves its
(partially written) file behind; render and create failures do not. -/
def runPagesErr (err : Int → Option PageStage) :
    List Int → List String → Except (List String × Int × PageStage) (List String)
  | [], files => Except.ok files
  | n :: rest, files =>
    match err n with
    | some PageStage.render => Except.error (files, n, PageStage.render)
    | some PageStage.create => Except.error (files, n, PageStage.create)
    | some PageStage.encode =>
      Except.error (files ++ [pageFileName n], n, PageStage.encode)
    | none => runPagesErr err rest (files ++ [pageFileName n])

theorem runPagesErr_abort (err : Int → Option PageStage) (pre : List Int)
    (post : List Int) (k : Int) (st : PageStage)
    (hpre : ∀ n ∈ pre, err n = none) (hk : err k = some st) :
    ∀ acc, runPagesErr err (pre ++ k :: post) acc =
      Except.error
        (acc ++ pre.map pageFileName ++
          (if st = PageStage.encode then [pageFileName k] else []), k, st) := by
  induction pre with
  | nil =>
    intro acc
    cases st with
    | render => simp [runPagesErr, hk]
    | create => simp [runPagesErr, hk]
    | encode => simp [runPagesErr, hk]
  | cons m pre ih =>
    intro acc
    have hm : err m = none := hpre m (by simp)
    have hpre2 : ∀ n ∈ pre, err n = none := fun n hn => hpre n (by simp [hn])
    rw [List.cons_append]
    have hstep : runPagesErr err (m :: (pre ++ k :: post)) acc =
        runPagesErr err (pre ++ k :: post) (acc ++ [pageFileName m]) := by
      simp only [runPagesErr, hm]
    rw [hstep, ih hpre2 (acc ++ [pageFileName m])]
    simp

/-- The chunk loop of `main` under error oracles: `openErr i` is `true`
when the `fitz.New` document-open call at the start of the i-th chunk
(0-based; `processChunk`, lines 81-82) fails, and `err` gives each
page's first failing stage.  `checkError` aborts the run at the first
error: an open failure happens before any page of its chunk, so it
leaves exactly the files of the completed chunks; a page failure is as
in `runPagesErr`.  The error value is the files present at abort, the
failing chunk's index, and `none` for an open failure or
`some (page, stage)` for a page failure. -/
def runChunksErr (openErr : Nat → Bool) (err : Int → Option PageStage) :
    List (Int × Int) → Nat → List String →
    Except (List String × Nat × Option (Int × PageStage)) (List String)
  | [], _, files => Except.ok files
  | (a, b) :: rest, i, files =>
    if openErr i = true then Except.error (files, i, none)
    else
      match runPagesErr err (intRange a b) files with
      | Except.error (fs, k, st) => Except.error (fs, i, some (k, st))
      | Except.ok fs => runChunksErr openErr err rest (i + 1) fs

theorem runPagesErr_ok (err : Int → Option PageStage) (pages : List Int)
    (h : ∀ n ∈ pages, err n = none) :
    ∀ acc, runPagesErr err pages acc =
      Except.ok (acc ++ pages.map pageFileName) := by
  induction pages with
  | nil => intro acc; simp [runPagesErr]
  | cons m rest ih =>
    intro acc
    have hm : err m = none := h m (by simp)
    have h2 : ∀ n ∈ rest, err n = none := fun n hn => h n (by simp [hn])
    have hstep : runPagesErr err (m :: rest) acc =
        runPagesErr err rest (acc ++ [pageFileName m]) := by
      simp only [runPagesErr, hm]
    rw [hstep, ih h2]
    simp

theorem runChunksErr_pre (openErr : Nat → Bool) (err : Int → Option PageStage) :
    ∀ (pre rest : List (Int × Int)) (i : Nat) (acc : List String),
      (∀ j, j < pre.length → openErr (i + j) = false) →
      (∀ p ∈ pre, ∀ n ∈ intRange p.1 p.2, err n = none) →
      runChunksErr openErr err (pre ++ rest) i acc =
        runChunksErr openErr err rest (i + pre.length)
          (acc ++ (pagesOf pre).map pageFileName) := by
  intro pre
  induction pre with
  | nil =>
    intro rest i acc _ _
    simp [pagesOf]
  | cons p pre ih =>
    intro rest i acc hopen hpages
    obtain ⟨a, b⟩ := p
    have hoi : openErr i = false := by
      have := hopen 0 (by simp)
      simpa using this
    have hab : ∀ n ∈ intRange a b, err n = none := by
      have := hpages (a, b) (by simp)
      simpa using this
    have hstep : runChunksErr openErr err ((a, b) :: (pre ++ rest)) i acc =
        runChunksErr openErr err (pre ++ rest) (i + 1)
          (acc ++ (intRange a b).map pageFileName) := by
      simp only [runChunksErr, hoi, runPagesErr_ok err (intRange a b) hab acc]
      simp
    rw [List.cons_append, hstep]
    have hopen2 : ∀ j, j < pre.length → openErr (i + 1 + j) = false := by
      intro j hj
      have := hopen (j + 1) (by simp; omega)
      rwa [show i + (j + 1) = i + 1 + j by omega] at this
    have hpages2 : ∀ p ∈ pre, ∀ n ∈ intRange p.1 p.2, err n = none :=
      fun p hp => hpages p (by simp [hp])
    rw [ih rest (i + 1) (acc ++ (intRange a b).map pageFileName) hopen2 hpages2]
    have hidx : i + 1 + pre.length = i + (pre.length + 1) := by omega
    rw [hidx]
    simp [pagesOf, List.append_assoc]

/-- C9 (amended): with all chunks before chunk `j` fully succeeding, the
run aborts immediately at the first failing operation of chunk `j`, with
an error outcome and independently of everything that would have
followed (no retry, no recovery):
if the `fitz.New` document-open of chunk `j` fails, the output holds
exactly the files of the completed chunks and no page of chunk `j` is
touched; if page `k` of chunk `j` fails after the pages before it
succeeded, the output holds exactly the files of the pages processed
before `k`, plus, when the failing stage is the JPEG encode, the file
`os.Create` had already created for page `k` itself.
(As stated the claim fails on encode errors: the failing page's created
file is also present, so the output is not exactly the files of the
pages before `k`.) -/
theorem error_abort_amended
    (openErr : Nat → Bool) (err : Int → Option PageStage)
    (pre : List (Int × Int)) (c : Int × Int) (post : List (Int × Int))
    (hpreOpen : ∀ j < pre.length, openErr j = false)
    (hprePages : ∀ p ∈ pre, ∀ n ∈ intRange p.1 p.2, err n = none) :
    (openErr pre.length = true →
      runChunksErr openErr err (pre ++ c :: post) 0 [] =
        Except.error ((pagesOf pre).map pageFileName, pre.length, none)) ∧
    (∀ (ppre : List Int) (k : Int) (ppost : List Int) (st : PageStage),
      openErr pre.length = false →
      intRange c.1 c.2 = ppre ++ k :: ppost →
      (∀ n ∈ ppre, err n = none) →
      err k = some st →
      runChunksErr openErr err (pre ++ c :: post) 0 [] =
        Except.error
          ((pagesOf pre).map pageFileName ++ ppre.map pageFileName ++
            (if st = PageStage.encode then [pageFileName k] else []),
            pre.length, some (k, st))) := by
  have hpre0 : ∀ j, j < pre.length → openErr (0 + j) = false := by
    intro j hj
    simpa using hpreOpen j hj
  have hmain := runChunksErr_pre openErr err pre (c :: post) 0 [] hpre0 hprePages
  simp only [List.nil_append, Nat.zero_add] at hmain
  obtain ⟨a, b⟩ := c
  constructor
  · intro hopen
    rw [hmain]
    simp [runChunksErr, hopen]
  · intro ppre k ppost st hopen hsplit hppre hk
    dsimp only at hsplit
    rw [hmain]
    have habort := runPagesErr_abort err ppre ppost k st hppre hk
      ((pagesOf pre).map pageFileName)
    simp only [runChunksErr, hopen, hsplit, habort]
    simp

/-- C9 counterexample: a one-chunk run over pages 0 and 1 whose encode
step fails on the very first page: `os.Create` has already created
`001.jpg`, so the output at abort is `["001.jpg"]`, not the empty list
of files of the pages processed before page 0. -/
theorem error_abort_cex :
    runChunksErr (fun _ => false)
        (fun n => if n = 0 then some PageStage.encode else none) [(0, 2)] 0 [] =
      Except.error (["001.jpg"], 0, some (0, PageStage.encode)) ∧
      (["001.jpg"] : List String) ≠ [] := by
  exact ⟨rfl, by decide⟩

/-- C9 witness: chunk 0 over pages 0-1 completes, then the document-open
of chunk 1 fails; chunk 2 is never reached and the output holds exactly
`001.jpg` and `002.jpg`. -/
theorem error_abort_amended_witness :
    ((∀ j < ([((0 : Int), (2 : Int))] : List (Int × Int)).length,
        (fun i : Nat => i == 1) j = false) ∧
      (∀ p ∈ ([((0 : Int), (2 : Int))] : List (Int × Int)),
        ∀ n ∈ intRange p.1 p.2, (fun _ : Int => (none : Option PageStage)) n = none)) ∧
      (((fun i : Nat => i == 1)
          ([((0 : Int), (2 : Int))] : List (Int × Int)).length = true →
        runChunksErr (fun i : Nat => i == 1) (fun _ : Int => none)
            ([((0 : Int), (2 : Int))] ++ (2, 4) :: [(4, 6)]) 0 [] =
          Except.error
            ((pagesOf [((0 : Int), (2 : Int))]).map pageFileName,
              ([((0 : Int), (2 : Int))] : List (Int × Int)).length, none)) ∧
       (∀ (ppre : List Int) (k : Int) (ppost : List Int) (st : PageStage),
        (fun i : Nat => i == 1)
            ([((0 : Int), (2 : Int))] : List (Int × Int)).length = false →
        intRange ((2 : Int), (4 : Int)).1 ((2 : Int), (4 : Int)).2 = ppre ++ k :: ppost →
        (∀ n ∈ ppre, (fun _ : Int => (none : Option PageStage)) n = none) →
        (fun _ : Int => (none : Option PageStage)) k = some st →
        runChunksErr (fun i : Nat => i == 1) (fun _ : Int => none)
            ([((0 : Int), (2 : Int))] ++ (2, 4) :: [(4, 6)]) 0 [] =
          Except.error
            ((pagesOf [((0 : Int), (2 : Int))]).map pageFileName ++
              ppre.map pageFileName ++
              (if st = PageStage.encode then [pageFileName k] else []),
              ([((0 : Int), (2 : Int))] : List (Int × Int)).length, some (k, st)))) :=
  ⟨⟨by decide, by decide⟩,
    error_abort_amended (fun i : Nat => i == 1) (fun _ : Int => none)
      [((0 : Int), (2 : Int))] (2, 4) [(4, 6)] (by decide) (by decide)⟩
